import Mathlib

/-!
Verification of `pv::views::trace::TraceTreeItemOwner`
(src/pv/views/trace/tracetreeitemowner.cpp).

The development embeds the functions of that translation unit shallowly:

* `Child` models the state of one direct child (`TraceTreeItem`) as seen by
  the owner: its identity (the shared pointer, modelled as a numeric id),
  `enabled()`, `dragging()`, `layout_v_offset()` and the pair returned by its
  own virtual `v_extents()`.  C++ `int` is modelled as `Int`; the `/ 2` in the
  sort key is C++ truncating division, i.e. `Int.tdiv`.
* `restack_sort`, `restack_walk`, `restack_items` embed
  `TraceTreeItemOwner::restack_items` (lines 164-196).  `std::stable_sort`
  with the strict comparator `lt` is modelled by the stable insertion sort
  over the reflexive relation `le a b := ¬ lt b a`, which for the total key
  order is `sortKey a ≤ sortKey b`.  The in-place mutation of the shared
  items is modelled by mapping every list entry to its updated copy, located
  by identity.
* `v_extents_owner` embeds `TraceTreeItemOwner::v_extents` (lines 104-128)
  including its `INT_MAX` / `INT_MIN` accumulator seeds and the
  `has_children` flag.
-/

structure Child where
  id : Nat
  enabled : Bool
  dragging : Bool
  layout_v_offset : Int
  v_extents : Int × Int
deriving DecidableEq, Repr

/-- The sort key used by `restack_items`:
`a->layout_v_offset() + (aext.first + aext.second) / 2` with C++ truncating
integer division. -/
def sortKey (c : Child) : Int :=
  c.layout_v_offset + Int.tdiv (c.v_extents.1 + c.v_extents.2) 2

/-- The (non-strict) order induced by the strict `stable_sort` comparator of
`restack_items`: `le a b := ¬ (comparator b a)`, i.e. `sortKey a ≤ sortKey b`. -/
def stackRel (a b : Child) : Prop := sortKey a ≤ sortKey b

instance : DecidableRel stackRel := fun a b => by
  unfold stackRel; infer_instance

instance : IsTotal Child stackRel := ⟨fun a b => le_total (sortKey a) (sortKey b)⟩

instance : IsTrans Child stackRel := ⟨fun _ _ _ h1 h2 => le_trans h1 h2⟩

/-- The strict key order; used to state uniqueness of the sorted order. -/
def stackLt (a b : Child) : Prop := sortKey a < sortKey b

instance : IsAntisymm Child stackLt :=
  ⟨fun _ _ h1 h2 => absurd h2 (not_lt_of_gt h1)⟩

/-- Embeds `std::stable_sort(items.begin(), items.end(), comparator)` of
`restack_items`, lines 169-177. -/
def restack_sort (l : List Child) : List Child := List.insertionSort stackRel l

/-- The accumulation loop of `restack_items`, lines 179-195: walks the sorted
items threading `total_offset` (second component of the result); returns the
items of the walked sequence with their updated offsets. -/
def restack_walk : Int → List Child → List Child × Int
  | total, [] => ([], total)
  | total, r :: rest =>
    if r.v_extents.1 = 0 ∧ r.v_extents.2 = 0 then
      -- `continue`: the item is skipped, keeping its current offset
      let tail := restack_walk total rest
      (r :: tail.1, tail.2)
    else
      let t1 := if r.enabled then total + (-r.v_extents.1) else total
      let r' := if r.dragging then r else { r with layout_v_offset := t1 }
      let t2 := if r.enabled then t1 + r.v_extents.2 else t1
      let tail := restack_walk t2 rest
      (r' :: tail.1, tail.2)

/-- The write-back of the in-place mutation performed by the walk: every
entry of `items_` (in unchanged insertion order) is replaced by its updated
copy, located by shared-pointer identity. -/
def write_back (assigned : List Child) (l : List Child) : List Child :=
  l.map (fun c => ((assigned.find? (fun d => d.id == c.id)).getD c))

/-- Embeds `TraceTreeItemOwner::restack_items` (lines 164-196): sort a snapshot of
the children by key, walk it assigning offsets, and write each item's updated
state back through its shared identity; `items_` keeps its insertion order. -/
def restack_items (l : List Child) : List Child :=
  write_back (restack_walk 0 (restack_sort l)).1 l

/-- The negation of the skip test of the walk (line 182:
`extents.first == 0 && extents.second == 0`). -/
def has_nonzero_extents (c : Child) : Bool :=
  !(c.v_extents.1 == 0 && c.v_extents.2 == 0)

/-- One iteration of the loop of `TraceTreeItemOwner::v_extents`
(lines 109-122): state is `(has_children, extents.first, extents.second)`;
a disabled child is skipped (`continue`), an enabled one sets the flag and
accumulates `min` / `max` of its extents translated by its offset. -/
def v_extents_step (st : Bool × Int × Int) (t : Child) : Bool × Int × Int :=
  if t.enabled then
    (true,
     min (t.v_extents.1 + t.layout_v_offset) st.2.1,
     max (t.v_extents.2 + t.layout_v_offset) st.2.2)
  else st

/-- Embeds `TraceTreeItemOwner::v_extents` (lines 104-128): fold over the direct
children starting from `(INT_MAX, INT_MIN)` with `has_children = false`;
`(0, 0)` when no enabled child was seen. -/
def v_extents_owner (l : List Child) : Int × Int :=
  let r := l.foldl v_extents_step (false, 2147483647, -2147483648)
  if r.1 then (r.2.1, r.2.2) else (0, 0)

/-! ### Helper lemmas about folded minima and maxima -/

theorem foldl_min_min : ∀ (as : List Int) (a c : Int),
    as.foldl min (min c a) = min c (as.foldl min a)
  | [], _, _ => rfl
  | b :: as, a, c => by
    simp only [List.foldl_cons]
    rw [min_assoc, foldl_min_min as (min a b) c]

theorem foldl_max_max : ∀ (as : List Int) (a c : Int),
    as.foldl max (max c a) = max c (as.foldl max a)
  | [], _, _ => rfl
  | b :: as, a, c => by
    simp only [List.foldl_cons]
    rw [max_assoc, foldl_max_max as (max a b) c]

theorem foldl_min_of_min?_eq_some {vals : List Int} {m : Int}
    (h : vals.min? = some m) (c : Int) : vals.foldl min c = min c m := by
  cases vals with
  | nil => simp at h
  | cons a as =>
    have hm : as.foldl min a = m := by
      simpa [List.min?] using h
    calc (a :: as).foldl min c = as.foldl min (min c a) := by simp
    _ = min c (as.foldl min a) := foldl_min_min as a c
    _ = min c m := by rw [hm]

theorem foldl_max_of_max?_eq_some {vals : List Int} {M : Int}
    (h : vals.max? = some M) (c : Int) : vals.foldl max c = max c M := by
  cases vals with
  | nil => simp at h
  | cons a as =>
    have hm : as.foldl max a = M := by
      simpa [List.max?] using h
    calc (a :: as).foldl max c = as.foldl max (max c a) := by simp
    _ = max c (as.foldl max a) := foldl_max_max as a c
    _ = max c M := by rw [hm]

/-- Closed form of the `v_extents` loop: the flag records whether an enabled
child was seen, and the two accumulators are folded minima / maxima over the
enabled children's translated extents. -/
theorem foldl_v_extents_step (l : List Child) : ∀ (b : Bool) (x y : Int),
    l.foldl v_extents_step (b, x, y) =
      (b || !(l.filter (fun c => c.enabled)).isEmpty,
       ((l.filter (fun c => c.enabled)).map
          (fun c => c.v_extents.1 + c.layout_v_offset)).foldl min x,
       ((l.filter (fun c => c.enabled)).map
          (fun c => c.v_extents.2 + c.layout_v_offset)).foldl max y)
  | b, x, y => by
    cases l with
    | nil => simp
    | cons t l =>
      by_cases ht : t.enabled
      · simp only [List.foldl_cons, v_extents_step, ht, if_true]
        rw [foldl_v_extents_step l true _ _]
        simp [List.filter_cons, ht, min_comm, max_comm]
      · simp only [List.foldl_cons, v_extents_step, ht, if_false, Bool.false_eq_true]
        rw [foldl_v_extents_step l b x y]
        simp [List.filter_cons, ht]

/-- C3: `v_extents()` returns exactly `(0, 0)` when the owner has no children
or all children are disabled; otherwise it returns the min over enabled
children of `child_extents.min + child_offset` paired with the max over
enabled children of `child_extents.max + child_offset`, disabled children
contributing nothing.  (The extremes must lie within the C++ `int` sentinel
bounds `INT_MAX` / `INT_MIN` used to seed the accumulators.) -/
theorem restacking_v_extents_owner_characterization (l : List Child) :
    ((l.filter (fun c => c.enabled)).isEmpty = true → v_extents_owner l = (0, 0)) ∧
    (∀ m M : Int,
      ((l.filter (fun c => c.enabled)).map
        (fun c => c.v_extents.1 + c.layout_v_offset)).min? = some m →
      ((l.filter (fun c => c.enabled)).map
        (fun c => c.v_extents.2 + c.layout_v_offset)).max? = some M →
      m ≤ 2147483647 → -2147483648 ≤ M →
      v_extents_owner l = (m, M)) := by
  constructor
  · intro h
    unfold v_extents_owner
    rw [foldl_v_extents_step l false 2147483647 (-2147483648)]
    simp [h]
  · intro m M hm hM hmb hMb
    have hne : (l.filter (fun c => c.enabled)).isEmpty = false := by
      cases hes : l.filter (fun c => c.enabled) with
      | nil => rw [hes] at hm; simp at hm
      | cons a as => simp [hes]
    unfold v_extents_owner
    rw [foldl_v_extents_step l false 2147483647 (-2147483648)]
    simp only [hne, Bool.false_or, Bool.not_false, if_true]
    rw [foldl_min_of_min?_eq_some hm, foldl_max_of_max?_eq_some hM]
    rw [min_eq_right hmb, max_eq_right hMb]

/-- Witness for C3 at a concrete input: one enabled child of extent
`(-5, 10)` at offset `0` gives owner extents `(-5, 10)`. -/
theorem restacking_v_extents_owner_characterization_witness :
    v_extents_owner [⟨0, true, false, 0, (-5, 10)⟩] = (-5, 10) :=
  (restacking_v_extents_owner_characterization
    [⟨0, true, false, 0, (-5, 10)⟩]).2 (-5) 10
    (by decide) (by decide) (by decide) (by decide)

/-! ### Stability of the modelled `std::stable_sort` -/

theorem filter_orderedInsert_pos {k : Int} {a : Child} (ha : sortKey a = k) :
    ∀ s : List Child,
      (List.orderedInsert stackRel a s).filter (fun c => sortKey c == k)
        = a :: s.filter (fun c => sortKey c == k)
  | [] => by simp [List.orderedInsert, ha]
  | b :: s => by
    by_cases h : stackRel a b
    · simp [List.orderedInsert, h, List.filter_cons, ha]
    · have hbk : ¬(sortKey b = k) := fun hb =>
        h (show sortKey a ≤ sortKey b by rw [ha, hb])
      simp only [List.orderedInsert, if_neg h, List.filter_cons]
      rw [filter_orderedInsert_pos ha s]
      simp [hbk]

theorem filter_orderedInsert_neg {k : Int} {a : Child} (ha : ¬(sortKey a = k)) :
    ∀ s : List Child,
      (List.orderedInsert stackRel a s).filter (fun c => sortKey c == k)
        = s.filter (fun c => sortKey c == k)
  | [] => by simp [List.orderedInsert, ha]
  | b :: s => by
    by_cases h : stackRel a b
    · simp [List.orderedInsert, h, List.filter_cons, ha]
    · simp only [List.orderedInsert, if_neg h, List.filter_cons]
      rw [filter_orderedInsert_neg ha s]

/-- Stability of the modelled `stable_sort`: for every key value, the
subsequence of items carrying that key is preserved verbatim (same items,
same relative order) by the sort. -/
theorem filter_insertionSort (k : Int) : ∀ l : List Child,
    (List.insertionSort stackRel l).filter (fun c => sortKey c == k)
      = l.filter (fun c => sortKey c == k)
  | [] => rfl
  | a :: l => by
    by_cases ha : sortKey a = k
    · simp only [List.insertionSort, List.filter_cons]
      rw [filter_orderedInsert_pos ha _, filter_insertionSort k l]
      simp [ha]
    · simp only [List.insertionSort, List.filter_cons]
      rw [filter_orderedInsert_neg ha _, filter_insertionSort k l]
      simp [ha]

/-- C5: `restack_items` processes the direct children in ascending order of
`layout_v_offset + (v_extents.min + v_extents.max) / 2` (truncating integer
division, embodied in `sortKey`); the processed sequence is a permutation of
the children in which items of equal key keep their insertion order, and the
offsets assigned are exactly those produced by walking that sorted
sequence. -/
theorem restack_items_sorted_stable_walk (l : List Child) :
    List.Sorted stackRel (restack_sort l) ∧
    (restack_sort l).Perm l ∧
    (∀ k : Int, (restack_sort l).filter (fun c => sortKey c == k)
        = l.filter (fun c => sortKey c == k)) ∧
    restack_items l =
      l.map (fun c =>
        (((restack_walk 0 (restack_sort l)).1.find? (fun d => d.id == c.id)).getD c)) :=
  ⟨List.sorted_insertionSort stackRel l, List.perm_insertionSort stackRel l,
   fun k => filter_insertionSort k l, rfl⟩

/-! ### Decomposing the restack walk -/

theorem restack_walk_append : ∀ (u v : List Child) (t : Int),
    restack_walk t (u ++ v) =
      ((restack_walk t u).1 ++ (restack_walk (restack_walk t u).2 v).1,
       (restack_walk (restack_walk t u).2 v).2)
  | [], v, t => by simp [restack_walk]
  | r :: u, v, t => by
    by_cases h : r.v_extents.1 = 0 ∧ r.v_extents.2 = 0
    · simp only [List.cons_append, restack_walk, if_pos h, List.append_eq]
      rw [restack_walk_append u v t]
    · simp only [List.cons_append, restack_walk, if_neg h, List.append_eq]
      rw [restack_walk_append u v _]

/-- C7: a disabled child `d` of nonzero extent that is not being dragged is
assigned `layout_v_offset` equal to the running accumulator reached at its
position in the sorted processing order, and the walk continues past it with
that accumulator unchanged, so the offsets of the siblings after it are
independent of `d`'s extent. -/
theorem restack_disabled_child_ghost_offset (l s₁ s₂ : List Child) (d : Child)
    (hs : restack_sort l = s₁ ++ d :: s₂)
    (hen : d.enabled = false) (hdr : d.dragging = false)
    (hnz : ¬(d.v_extents.1 = 0 ∧ d.v_extents.2 = 0)) :
    (restack_walk 0 (restack_sort l)).1
      = (restack_walk 0 s₁).1
        ++ ({ d with layout_v_offset := (restack_walk 0 s₁).2 }
            :: (restack_walk (restack_walk 0 s₁).2 s₂).1) ∧
    (restack_walk 0 (restack_sort l)).2
      = (restack_walk (restack_walk 0 s₁).2 s₂).2 := by
  rw [hs, restack_walk_append s₁ (d :: s₂) 0]
  constructor <;> simp [restack_walk, hnz, hen, hdr]

/-- Witness for C7 at a concrete input: children `(id 0, enabled, extent
(0, 2), offset 0)` and `(id 1, disabled, extent (1, 1), offset 5)`; the sorted
order puts the disabled child last and it receives the accumulator value. -/
theorem restack_disabled_child_ghost_offset_witness :
    (restack_walk 0 (restack_sort
        [⟨0, true, false, 0, (0, 2)⟩, ⟨1, false, false, 5, (1, 1)⟩])).1
      = (restack_walk 0 [(⟨0, true, false, 0, (0, 2)⟩ : Child)]).1
        ++ ({ (⟨1, false, false, 5, (1, 1)⟩ : Child) with
              layout_v_offset :=
                (restack_walk 0 [(⟨0, true, false, 0, (0, 2)⟩ : Child)]).2 }
            :: (restack_walk
                (restack_walk 0 [(⟨0, true, false, 0, (0, 2)⟩ : Child)]).2
                ([] : List Child)).1) ∧
    (restack_walk 0 (restack_sort
        [⟨0, true, false, 0, (0, 2)⟩, ⟨1, false, false, 5, (1, 1)⟩])).2
      = (restack_walk
          (restack_walk 0 [(⟨0, true, false, 0, (0, 2)⟩ : Child)]).2
          ([] : List Child)).2 :=
  restack_disabled_child_ghost_offset
    [⟨0, true, false, 0, (0, 2)⟩, ⟨1, false, false, 5, (1, 1)⟩]
    [⟨0, true, false, 0, (0, 2)⟩] [] ⟨1, false, false, 5, (1, 1)⟩
    (by decide) (by decide) (by decide) (by decide)

/-! ### Pointwise description of the walk, and identity-based lookup -/

/-- Pointwise relation between the sorted snapshot and the walk output: every
item keeps its identity, flags and extents; items of zero extent and dragged
items are left entirely unchanged. -/
def walkRel (x y : Child) : Prop :=
  y.id = x.id ∧ y.enabled = x.enabled ∧ y.dragging = x.dragging ∧
  y.v_extents = x.v_extents ∧
  ((x.v_extents.1 = 0 ∧ x.v_extents.2 = 0) → y = x) ∧
  (x.dragging = true → y = x)

theorem restack_walk_forall₂ : ∀ (s : List Child) (t : Int),
    List.Forall₂ walkRel s (restack_walk t s).1
  | [], t => by simp [restack_walk]
  | r :: s, t => by
    by_cases h : r.v_extents.1 = 0 ∧ r.v_extents.2 = 0
    · simp only [restack_walk, if_pos h]
      exact List.Forall₂.cons ⟨rfl, rfl, rfl, rfl, fun _ => rfl, fun _ => rfl⟩
        (restack_walk_forall₂ s _)
    · simp only [restack_walk, if_neg h]
      refine List.Forall₂.cons ?_ (restack_walk_forall₂ s _)
      by_cases hd : r.dragging = true
      · rw [if_pos hd]
        exact ⟨rfl, rfl, rfl, rfl, fun _ => rfl, fun _ => rfl⟩
      · rw [if_neg hd]
        exact ⟨rfl, rfl, rfl, rfl, fun hz => absurd hz h, fun hdr => absurd hdr hd⟩

theorem forall₂_exists_right {α β : Type} {P : α → β → Prop} :
    ∀ {s : List α} {A : List β}, List.Forall₂ P s A →
      ∀ {c : α}, c ∈ s → ∃ y ∈ A, P c y := by
  intro s A h
  induction h with
  | nil => intro c hc; cases hc
  | @cons a b s' A' hP _ ih =>
    intro c hc
    rcases List.mem_cons.mp hc with rfl | hc'
    · exact ⟨b, List.mem_cons_self b A', hP⟩
    · obtain ⟨y, hy, hPy⟩ := ih hc'
      exact ⟨y, List.mem_cons_of_mem _ hy, hPy⟩

theorem restack_walk_map_id : ∀ (s : List Child) (t : Int),
    ((restack_walk t s).1).map Child.id = s.map Child.id
  | [], t => by simp [restack_walk]
  | r :: s, t => by
    by_cases h : r.v_extents.1 = 0 ∧ r.v_extents.2 = 0
    · simp only [restack_walk, if_pos h, List.map_cons]
      rw [restack_walk_map_id s _]
    · simp only [restack_walk, if_neg h, List.map_cons]
      rw [restack_walk_map_id s _]
      by_cases hd : r.dragging <;> simp [hd]

/-- In a list whose identities are distinct, `find?` by the identity of a
member returns exactly that member. -/
theorem find?_id_eq_some {A : List Child} {y : Child} {k : Nat}
    (hnd : (A.map Child.id).Nodup) (hy : y ∈ A) (hk : y.id = k) :
    A.find? (fun d => d.id == k) = some y := by
  induction A with
  | nil => cases hy
  | cons a A ih =>
    rcases List.mem_cons.mp hy with rfl | hy'
    · simp [List.find?, hk]
    · have hne : a.id ≠ k := by
        intro he
        have : y.id ∈ A.map Child.id := List.mem_map_of_mem Child.id hy'
        rw [hk] at this
        rw [← he] at this
        exact (List.nodup_cons.mp (by simpa using hnd)).1 this
      have : (a.id == k) = false := by simpa using hne
      simp only [List.find?, this]
      exact ih (List.nodup_cons.mp (by simpa using hnd)).2 hy'

/-! ### The sort and the walk both commute with dropping zero-extent items -/

theorem orderedInsert_of_forall_rel {a : Child} : ∀ {xs : List Child},
    (∀ c ∈ xs, stackRel a c) → List.orderedInsert stackRel a xs = a :: xs
  | [], _ => rfl
  | b :: xs, h => by
    rw [List.orderedInsert, if_pos (h b (List.mem_cons_self b xs))]

theorem filter_orderedInsert_of_pos {q : Child → Bool} {a : Child} (hq : q a = true) :
    ∀ s : List Child, List.Sorted stackRel s →
      (List.orderedInsert stackRel a s).filter q
        = List.orderedInsert stackRel a (s.filter q)
  | [], _ => by simp [List.orderedInsert, hq]
  | b :: s, hs => by
    have hs' : List.Sorted stackRel s := hs.of_cons
    have hball : ∀ c ∈ s, stackRel b c := List.rel_of_sorted_cons hs
    by_cases hab : stackRel a b
    · rw [List.orderedInsert, if_pos hab]
      rw [@orderedInsert_of_forall_rel a ((b :: s).filter q) ?_]
      · simp [List.filter_cons, hq]
      · intro c hc
        rcases List.mem_cons.mp (List.mem_filter.mp hc).1 with rfl | hcs
        · exact hab
        · exact le_trans hab (hball c hcs)
    · rw [List.orderedInsert, if_neg hab]
      by_cases hb : q b = true
      · simp only [List.filter_cons, hb, if_true]
        rw [List.orderedInsert, if_neg hab]
        rw [filter_orderedInsert_of_pos hq s hs']
      · simp only [List.filter_cons, hb, if_false]
        rw [filter_orderedInsert_of_pos hq s hs']
        simp

theorem filter_orderedInsert_of_neg {q : Child → Bool} {a : Child} (hq : q a = false) :
    ∀ s : List Child, (List.orderedInsert stackRel a s).filter q = s.filter q
  | [] => by simp [List.orderedInsert, hq]
  | b :: s => by
    by_cases hab : stackRel a b
    · rw [List.orderedInsert, if_pos hab]
      simp [List.filter_cons, hq]
    · rw [List.orderedInsert, if_neg hab]
      simp only [List.filter_cons]
      rw [filter_orderedInsert_of_neg hq s]

/-- Stable sorting commutes with removing some of the items: sorting a
filtered snapshot gives the filtered sorted snapshot. -/
theorem insertionSort_filter_comm (q : Child → Bool) : ∀ l : List Child,
    List.insertionSort stackRel (l.filter q)
      = (List.insertionSort stackRel l).filter q
  | [] => rfl
  | a :: l => by
    by_cases ha : q a = true
    · simp only [List.filter_cons, ha, if_true, List.insertionSort]
      rw [insertionSort_filter_comm q l]
      rw [filter_orderedInsert_of_pos ha _ (List.sorted_insertionSort stackRel l)]
    · simp only [List.filter_cons, ha, Bool.false_eq_true, if_false, List.insertionSort]
      rw [insertionSort_filter_comm q l]
      rw [filter_orderedInsert_of_neg (by simpa using ha) _]

theorem has_nonzero_extents_false_iff (c : Child) :
    has_nonzero_extents c = false ↔ (c.v_extents.1 = 0 ∧ c.v_extents.2 = 0) := by
  simp [has_nonzero_extents]

/-- The walk commutes with dropping the zero-extent items: they are skipped
unchanged, and removing them changes neither the other items' outcomes nor
the final accumulator. -/
theorem restack_walk_filter : ∀ (s : List Child) (t : Int),
    restack_walk t (s.filter has_nonzero_extents)
      = ((restack_walk t s).1.filter has_nonzero_extents, (restack_walk t s).2)
  | [], t => by simp [restack_walk]
  | r :: s, t => by
    by_cases h : r.v_extents.1 = 0 ∧ r.v_extents.2 = 0
    · have hr : has_nonzero_extents r = false :=
        (has_nonzero_extents_false_iff r).mpr h
      simp only [List.filter_cons, hr, Bool.false_eq_true, if_false]
      rw [restack_walk_filter s t]
      simp only [restack_walk, if_pos h, List.filter_cons, hr, Bool.false_eq_true,
        if_false]
    · have hr : has_nonzero_extents r = true := by
        cases hz : has_nonzero_extents r with
        | false => exact absurd ((has_nonzero_extents_false_iff r).mp hz) h
        | true => rfl
      simp only [List.filter_cons, hr, if_true]
      simp only [restack_walk, if_neg h]
      rw [restack_walk_filter s _]
      have hr' : has_nonzero_extents
          (if r.dragging = true then r
           else { r with layout_v_offset :=
                    if r.enabled = true then t + -r.v_extents.1 else t }) = true := by
        by_cases hd : r.dragging = true
        · rw [if_pos hd]; exact hr
        · rw [if_neg hd]; exact hr
      simp only [List.filter_cons, hr', if_true]

theorem assigned_map_id_perm (l : List Child) :
    (((restack_walk 0 (restack_sort l)).1).map Child.id).Perm (l.map Child.id) := by
  rw [restack_walk_map_id]
  exact (List.perm_insertionSort stackRel l).map Child.id

theorem assigned_ids_nodup (l : List Child) (h : (l.map Child.id).Nodup) :
    (((restack_walk 0 (restack_sort l)).1).map Child.id).Nodup :=
  ((assigned_map_id_perm l).nodup_iff).mpr h

/-- For a child `c` of a duplicate-free list, the walk output contains a
unique updated copy of `c`, found by identity, related to `c` by `walkRel`. -/
theorem pick_spec (l : List Child) (hnd : (l.map Child.id).Nodup) {c : Child}
    (hc : c ∈ l) :
    ∃ y, ((restack_walk 0 (restack_sort l)).1.find? (fun d => d.id == c.id))
        = some y ∧ walkRel c y := by
  have hcs : c ∈ restack_sort l := (List.perm_insertionSort stackRel l).mem_iff.mpr hc
  obtain ⟨y, hyA, hPy⟩ :=
    forall₂_exists_right (restack_walk_forall₂ (restack_sort l) 0) hcs
  exact ⟨y, find?_id_eq_some (assigned_ids_nodup l hnd) hyA hPy.1, hPy⟩

theorem has_nonzero_extents_congr {c y : Child} (h : y.v_extents = c.v_extents) :
    has_nonzero_extents y = has_nonzero_extents c := by
  simp [has_nonzero_extents, h]

/-- C6: during `restack_items` every child whose own extent is exactly
`(0, 0)` is left entirely unchanged (its `layout_v_offset` is untouched), and
the restack of the children with the zero-extent ones removed assigns all
remaining children exactly the same states, so a zero-extent child shifts
nobody. -/
theorem restack_skips_zero_extent_children (l : List Child)
    (hnd : (l.map Child.id).Nodup) :
    List.Forall₂ (fun c c' => (c.v_extents.1 = 0 ∧ c.v_extents.2 = 0) → c' = c)
      l (restack_items l) ∧
    restack_items (l.filter has_nonzero_extents)
      = (restack_items l).filter has_nonzero_extents := by
  constructor
  · show List.Forall₂ _ l (l.map _)
    rw [List.forall₂_map_right_iff]
    rw [List.forall₂_same]
    intro c hc hz
    obtain ⟨y, hfind, hPy⟩ := pick_spec l hnd hc
    rw [hfind]
    exact hPy.2.2.2.2.1 hz
  · have hsort : restack_sort (l.filter has_nonzero_extents)
        = (restack_sort l).filter has_nonzero_extents :=
      insertionSort_filter_comm has_nonzero_extents l
    have hA : (restack_walk 0 (restack_sort (l.filter has_nonzero_extents))).1
        = ((restack_walk 0 (restack_sort l)).1).filter has_nonzero_extents := by
      rw [hsort, restack_walk_filter]
    show write_back _ _ = List.filter _ (List.map _ _)
    rw [List.filter_map]
    have hcongr : l.filter (has_nonzero_extents ∘ fun c =>
        (((restack_walk 0 (restack_sort l)).1.find?
          (fun d => d.id == c.id)).getD c)) = l.filter has_nonzero_extents := by
      apply List.filter_congr
      intro c hc
      obtain ⟨y, hfind, hPy⟩ := pick_spec l hnd hc
      simp only [Function.comp_apply, hfind, Option.getD_some]
      exact has_nonzero_extents_congr hPy.2.2.2.1
    rw [hcongr]
    unfold write_back
    rw [hA]
    apply List.map_congr_left
    intro c hc
    obtain ⟨hcl, hcnz⟩ := List.mem_filter.mp hc
    obtain ⟨y, hfind, hPy⟩ := pick_spec l hnd hcl
    have hyA : y ∈ (restack_walk 0 (restack_sort l)).1 :=
      List.mem_of_find?_eq_some hfind
    have hynz : has_nonzero_extents y = true := by
      rw [has_nonzero_extents_congr hPy.2.2.2.1]; exact hcnz
    have hyA' : y ∈ ((restack_walk 0 (restack_sort l)).1).filter
        has_nonzero_extents := List.mem_filter.mpr ⟨hyA, hynz⟩
    have hnd' : ((((restack_walk 0 (restack_sort l)).1).filter
        has_nonzero_extents).map Child.id).Nodup :=
      ((List.filter_sublist _).map Child.id).nodup (assigned_ids_nodup l hnd)
    rw [find?_id_eq_some hnd' hyA' hPy.1, hfind]

/-- Witness for C6 at a concrete input: a zero-extent child (id 0) between
two ordinary children; it is left untouched and removing it changes nothing
for the others. -/
theorem restack_skips_zero_extent_children_witness :
    List.Forall₂ (fun c c' => (c.v_extents.1 = 0 ∧ c.v_extents.2 = 0) → c' = c)
      [⟨0, true, false, 3, (0, 0)⟩, ⟨1, true, false, 0, (0, 4)⟩]
      (restack_items [⟨0, true, false, 3, (0, 0)⟩, ⟨1, true, false, 0, (0, 4)⟩]) ∧
    restack_items ([⟨0, true, false, 3, (0, 0)⟩,
        ⟨1, true, false, 0, (0, 4)⟩].filter has_nonzero_extents)
      = (restack_items [⟨0, true, false, 3, (0, 0)⟩,
          ⟨1, true, false, 0, (0, 4)⟩]).filter has_nonzero_extents :=
  restack_skips_zero_extent_children
    [⟨0, true, false, 3, (0, 0)⟩, ⟨1, true, false, 0, (0, 4)⟩] (by decide)

/-! ### Idempotence of restacking -/

/-- C1 counterexample: with an enabled child (id 0, extent `(0, 10)`, offset
`0`) and a disabled child (id 1, extent `(-100, -100)`, offset `1000`), the
first `restack_items` call assigns offsets `[0, 10]` but an immediately
repeated call assigns `[0, 0]`: the disabled child's new offset changes its
sort key, reordering the second pass. -/
theorem restack_items_not_idempotent :
    (restack_items (restack_items
        [⟨0, true, false, 0, (0, 10)⟩,
         ⟨1, false, false, 1000, (-100, -100)⟩])).map Child.layout_v_offset
      ≠ (restack_items
        [⟨0, true, false, 0, (0, 10)⟩,
         ⟨1, false, false, 1000, (-100, -100)⟩]).map Child.layout_v_offset := by
  decide

/-- The hypotheses under which restacking is idempotent: the child is
enabled, not being dragged, and has an extent of positive even width
(`min < max` with `min + max` even, so the key of its restacked position is
its exact midpoint and keys are strictly increasing along the walk). -/
def goodChild (c : Child) : Prop :=
  c.enabled = true ∧ c.dragging = false ∧
  c.v_extents.1 < c.v_extents.2 ∧ (c.v_extents.1 + c.v_extents.2) % 2 = 0

theorem goodChild_not_zero {c : Child} (h : goodChild c) :
    ¬(c.v_extents.1 = 0 ∧ c.v_extents.2 = 0) := by
  rintro ⟨h1, h2⟩
  have h3 := h.2.2.1
  omega

theorem two_mul_tdiv_two {n : Int} (h : n % 2 = 0) : 2 * Int.tdiv n 2 = n := by
  obtain ⟨k, hk⟩ : ∃ k, n = 2 * k := ⟨n / 2, by omega⟩
  subst hk
  rw [Int.mul_tdiv_cancel_left k (by norm_num)]

/-- One step of the walk on a good child. -/
theorem restack_walk_good_cons (r : Child) (s : List Child) (t : Int)
    (h : goodChild r) :
    restack_walk t (r :: s) =
      ({ r with layout_v_offset := t + -r.v_extents.1 }
        :: (restack_walk (t + -r.v_extents.1 + r.v_extents.2) s).1,
       (restack_walk (t + -r.v_extents.1 + r.v_extents.2) s).2) := by
  simp only [restack_walk, if_neg (goodChild_not_zero h), h.1, if_true,
    h.2.1, Bool.false_eq_true, if_false]

/-- The key of a good child restacked at accumulator `t` is the midpoint of
the interval it now occupies; doubled to stay in integer arithmetic. -/
theorem sortKey_good_offset (r : Child) (t : Int)
    (hpar : (r.v_extents.1 + r.v_extents.2) % 2 = 0) :
    2 * sortKey { r with layout_v_offset := t + -r.v_extents.1 }
      = 2 * t + (r.v_extents.2 - r.v_extents.1) := by
  show 2 * ((t + -r.v_extents.1) + Int.tdiv (r.v_extents.1 + r.v_extents.2) 2)
      = 2 * t + (r.v_extents.2 - r.v_extents.1)
  rw [mul_add, two_mul_tdiv_two hpar]
  ring

/-- Along the walk over good children the assigned keys are strictly
increasing, and all of them exceed the starting accumulator. -/
theorem restack_walk_good_sorted : ∀ (s : List Child) (t : Int),
    (∀ c ∈ s, goodChild c) →
    (restack_walk t s).1.Pairwise stackLt ∧
    (∀ y ∈ (restack_walk t s).1, t + 1 ≤ sortKey y)
  | [], t, _ => by simp [restack_walk]
  | r :: s, t, h => by
    have hr := h r (List.mem_cons_self r s)
    rw [restack_walk_good_cons r s t hr]
    obtain ⟨ih1, ih2⟩ := restack_walk_good_sorted s (t + -r.v_extents.1 + r.v_extents.2)
      (fun c hc => h c (List.mem_cons_of_mem r hc))
    have hkey : 2 * sortKey { r with layout_v_offset := t + -r.v_extents.1 }
        = 2 * t + (r.v_extents.2 - r.v_extents.1) :=
      sortKey_good_offset r t hr.2.2.2
    have hw : 2 ≤ r.v_extents.2 - r.v_extents.1 := by
      have h1 := hr.2.2.1
      have h2 := hr.2.2.2
      omega
    constructor
    · refine List.Pairwise.cons ?_ ih1
      intro z hz
      have hz' := ih2 z hz
      show sortKey _ < sortKey z
      omega
    · intro y hy
      rcases List.mem_cons.mp hy with rfl | hy'
      · omega
      · have := ih2 y hy'
        omega

/-- Rewalking the output of a walk over good children changes nothing: each
item is already at the offset the walk assigns. -/
theorem restack_walk_good_fix : ∀ (s : List Child) (t : Int),
    (∀ c ∈ s, goodChild c) →
    restack_walk t ((restack_walk t s).1) = restack_walk t s
  | [], t, _ => by simp [restack_walk]
  | r :: s, t, h => by
    have hr := h r (List.mem_cons_self r s)
    have hrest : ∀ c ∈ s, goodChild c := fun c hc => h c (List.mem_cons_of_mem r hc)
    rw [restack_walk_good_cons r s t hr]
    have hr' : goodChild { r with layout_v_offset := t + -r.v_extents.1 } :=
      ⟨hr.1, hr.2.1, hr.2.2.1, hr.2.2.2⟩
    rw [restack_walk_good_cons _ _ t hr']
    rw [restack_walk_good_fix s (t + -r.v_extents.1 + r.v_extents.2) hrest]

theorem forall₂_exists_left {α β : Type} {P : α → β → Prop} :
    ∀ {s : List α} {A : List β}, List.Forall₂ P s A →
      ∀ {y : β}, y ∈ A → ∃ x ∈ s, P x y := by
  intro s A h
  induction h with
  | nil => intro y hy; cases hy
  | @cons a b s' A' hP _ ih =>
    intro y hy
    rcases List.mem_cons.mp hy with rfl | hy'
    · exact ⟨a, List.mem_cons_self a s', hP⟩
    · obtain ⟨x, hx, hPx⟩ := ih hy'
      exact ⟨x, List.mem_cons_of_mem _ hx, hPx⟩

theorem count_map_eq_countP {α β : Type} [DecidableEq β] (f : α → β)
    (l : List α) (z : β) :
    (l.map f).count z = l.countP (fun c => f c == z) := by
  induction l with
  | nil => rfl
  | cons a l ih => simp [List.count_cons, List.countP_cons, ih]

/-- Writing the walk output back into the insertion-ordered list produces a
permutation of the walk output, provided identities are duplicate-free. -/
theorem write_back_perm (A l : List Child) (hnd : (l.map Child.id).Nodup)
    (hperm : (A.map Child.id).Perm (l.map Child.id)) :
    (write_back A l).Perm A := by
  have hndA : (A.map Child.id).Nodup := hperm.nodup_iff.mpr hnd
  have hAnodup : A.Nodup := hndA.of_map Child.id
  have hpickr : ∀ c ∈ l, ∃ x ∈ A,
      x.id = c.id ∧ (A.find? (fun d => d.id == c.id)).getD c = x := by
    intro c hc
    have hcid : c.id ∈ A.map Child.id :=
      hperm.mem_iff.mpr (List.mem_map_of_mem Child.id hc)
    obtain ⟨x, hxA, hxid⟩ := List.mem_map.mp hcid
    refine ⟨x, hxA, hxid, ?_⟩
    rw [find?_id_eq_some hndA hxA hxid]
    rfl
  rw [List.perm_iff_count]
  intro z
  unfold write_back
  rw [count_map_eq_countP]
  by_cases hz : z ∈ A
  · have hcount_z_A : A.count z = 1 := List.count_eq_one_of_mem hAnodup hz
    have hcongr : l.countP
        (fun c => ((A.find? (fun d => d.id == c.id)).getD c) == z)
        = l.countP (fun c => c.id == z.id) := by
      apply List.countP_congr
      intro c hc
      obtain ⟨x, hxA, hxid, hpick⟩ := hpickr c hc
      rw [hpick]
      constructor
      · intro hxz
        have : x = z := by simpa using hxz
        subst this
        simpa using hxid.symm
      · intro hcz
        have hcz' : c.id = z.id := by simpa using hcz
        have : x = z := List.inj_on_of_nodup_map hndA hxA hz (by rw [hxid, hcz'])
        simpa using this
    rw [hcongr, hcount_z_A]
    have h1 : l.countP (fun c => c.id == z.id) = (l.map Child.id).count z.id := by
      rw [count_map_eq_countP]
    rw [h1, ← hperm.count_eq z.id]
    exact List.count_eq_one_of_mem hndA (List.mem_map_of_mem Child.id hz)
  · have hcount_z_A : A.count z = 0 := List.count_eq_zero_of_not_mem hz
    rw [hcount_z_A]
    rw [List.countP_eq_zero]
    intro c hc
    obtain ⟨x, hxA, _, hpick⟩ := hpickr c hc
    rw [hpick]
    intro hxz
    have hxz' : x = z := by simpa using hxz
    exact hz (hxz' ▸ hxA)

/-- C1 (amended): `restack_items` is idempotent provided every child is
enabled, not being dragged, and has an extent of positive even width
(`v_extents.min < v_extents.max` with `min + max` even); identities are
distinct.  In general a second call can assign different offsets (see the
counterexample with a disabled child). -/
theorem restack_items_idempotent_when_enabled (l : List Child)
    (hnd : (l.map Child.id).Nodup)
    (hen : ∀ c ∈ l, c.enabled = true)
    (hdr : ∀ c ∈ l, c.dragging = false)
    (hext : ∀ c ∈ l, c.v_extents.1 < c.v_extents.2)
    (hpar : ∀ c ∈ l, (c.v_extents.1 + c.v_extents.2) % 2 = 0) :
    restack_items (restack_items l) = restack_items l := by
  have hgood : ∀ c ∈ l, goodChild c := fun c hc =>
    ⟨hen c hc, hdr c hc, hext c hc, hpar c hc⟩
  have hgood_sort : ∀ c ∈ restack_sort l, goodChild c := fun c hc =>
    hgood c ((List.perm_insertionSort stackRel l).mem_iff.mp hc)
  have hPairA : ((restack_walk 0 (restack_sort l)).1).Pairwise stackLt :=
    (restack_walk_good_sorted (restack_sort l) 0 hgood_sort).1
  have hndA_ids := assigned_ids_nodup l hnd
  have hm_perm : (restack_items l).Perm ((restack_walk 0 (restack_sort l)).1) :=
    write_back_perm _ l hnd (assigned_map_id_perm l)
  have hm_ids : (restack_items l).map Child.id = l.map Child.id := by
    unfold restack_items write_back
    rw [List.map_map]
    apply List.map_congr_left
    intro c hc
    obtain ⟨y, hfind, hPy⟩ := pick_spec l hnd hc
    simp only [Function.comp_apply, hfind, Option.getD_some]
    exact hPy.1
  have hsortm_perm : (restack_sort (restack_items l)).Perm
      ((restack_walk 0 (restack_sort l)).1) :=
    (List.perm_insertionSort stackRel (restack_items l)).trans hm_perm
  have hkeysA_ne : ((restack_walk 0 (restack_sort l)).1).Pairwise
      (fun a b => sortKey a ≠ sortKey b) :=
    hPairA.imp (fun h => ne_of_lt h)
  have hkeys_m_ne : (restack_sort (restack_items l)).Pairwise
      (fun a b => sortKey a ≠ sortKey b) := by
    have h1 : (((restack_walk 0 (restack_sort l)).1).map sortKey).Nodup :=
      List.pairwise_map.mpr hkeysA_ne
    have h2 : (((restack_sort (restack_items l)).map sortKey)).Nodup :=
      ((hsortm_perm.map sortKey).nodup_iff).mpr h1
    exact List.pairwise_map.mp h2
  have hPair_sortm : (restack_sort (restack_items l)).Pairwise stackLt := by
    have hle : (restack_sort (restack_items l)).Pairwise stackRel :=
      List.sorted_insertionSort stackRel (restack_items l)
    exact (hle.and hkeys_m_ne).imp (fun h => lt_of_le_of_ne h.1 h.2)
  have hsort_eq : restack_sort (restack_items l)
      = (restack_walk 0 (restack_sort l)).1 :=
    List.eq_of_perm_of_sorted hsortm_perm hPair_sortm hPairA
  have hfix := restack_walk_good_fix (restack_sort l) 0 hgood_sort
  show write_back
      (restack_walk 0 (restack_sort (restack_items l))).1 (restack_items l)
    = restack_items l
  rw [hsort_eq, hfix]
  unfold write_back
  have hid : ∀ c ∈ restack_items l,
      (((restack_walk 0 (restack_sort l)).1.find?
        (fun d => d.id == c.id)).getD c) = id c := by
    intro c hc
    have hcA : c ∈ (restack_walk 0 (restack_sort l)).1 := hm_perm.subset hc
    rw [find?_id_eq_some hndA_ids hcA rfl]
    rfl
  rw [List.map_congr_left hid, List.map_id]

/-- Witness for C1 (amended) at a concrete input: two enabled, undragged
children of even-width extents. -/
theorem restack_items_idempotent_when_enabled_witness :
    restack_items (restack_items
        [⟨0, true, false, 7, (-1, 1)⟩, ⟨1, true, false, -3, (-2, 4)⟩])
      = restack_items
        [⟨0, true, false, 7, (-1, 1)⟩, ⟨1, true, false, -3, (-2, 4)⟩] :=
  restack_items_idempotent_when_enabled
    [⟨0, true, false, 7, (-1, 1)⟩, ⟨1, true, false, -3, (-2, 4)⟩]
    (by decide) (by decide) (by decide) (by decide) (by decide)

/-!
### Ownership model for the child-list operations

`PNode` models a `TraceTreeItem` together with its `owner()` back-reference:
a leaf (`Trace`) or a group (`TraceGroup`, which owns a nested child list).
Owners are identified by numeric ids; the back-reference `set_owner` is the
only way the owner field changes, exactly as in the source.  The in-place
mutation of shared items is modelled by returning the post-states of the
affected nodes.
-/

inductive PNode where
  | leaf : Nat → Option Nat → PNode
  | group : Nat → Option Nat → List PNode → PNode
deriving Repr

def PNode.idOf : PNode → Nat
  | .leaf i _ => i
  | .group i _ _ => i

def PNode.powner : PNode → Option Nat
  | .leaf _ o => o
  | .group _ o _ => o

def PNode.set_owner : PNode → Option Nat → PNode
  | .leaf i _, o => .leaf i o
  | .group i _ cs, o => .group i o cs

def PNode.childrenOf : PNode → List PNode
  | .leaf _ _ => []
  | .group _ _ cs => cs

/-- Embeds `TraceTreeItemOwner::trace_tree_leaf_items` (lines 60-73): depth-first
expansion of the children; a group contributes its recursive leaves, a leaf
contributes itself. -/
def trace_tree_leaf_items : List PNode → List PNode
  | [] => []
  | PNode.leaf i o :: rest => PNode.leaf i o :: trace_tree_leaf_items rest
  | PNode.group _ _ cs :: rest =>
    trace_tree_leaf_items cs ++ trace_tree_leaf_items rest

/-- Embeds `TraceTreeItemOwner::clear_child_items` (lines 75-82): every direct child
(`trace_tree_child_items()`) has its owner back-reference nulled, then
`items_` is cleared in one step.  Result: (the new `items_`, the post-states
of the detached former children). -/
def clear_child_items (items_ : List PNode) : List PNode × List PNode :=
  ([], items_.map (fun t => t.set_owner none))

/-- Embeds `TraceTreeItemOwner::add_child_item` (lines 84-91): sets the item's owner
to this owner and appends it to `items_`. -/
def add_child_item (oid : Nat) (items_ : List PNode) (x : PNode) : List PNode :=
  items_ ++ [x.set_owner (some oid)]

/-- Embeds `TraceTreeItemOwner::remove_child_item` (lines 93-102): clears the item's
owner and erases the first (by shared-pointer identity, unique) matching
entry of `items_`.  Result: (the new `items_`, the detached item's
post-state). -/
def remove_child_item (items_ : List PNode) (x : PNode) : List PNode × PNode :=
  (items_.eraseP (fun y => y.idOf == x.idOf), x.set_owner none)

theorem set_owner_powner (t : PNode) (o : Option Nat) :
    (t.set_owner o).powner = o := by
  cases t <;> rfl

theorem set_owner_idOf (t : PNode) (o : Option Nat) :
    (t.set_owner o).idOf = t.idOf := by
  cases t <;> rfl

theorem set_owner_childrenOf (t : PNode) (o : Option Nat) :
    (t.set_owner o).childrenOf = t.childrenOf := by
  cases t <;> rfl

/-- C4 counterexample: an owner (id 0) owning one group (id 1) that owns one
leaf (id 2).  After `clear_child_items`, the recursively-flattened leaf still
carries its back-reference to the group: it is not nulled, contradicting the
claim that every recursively-flattened item's owner is nulled. -/
theorem clear_child_items_not_recursive :
    ¬(∀ t ∈ trace_tree_leaf_items
        ((clear_child_items
          [PNode.group 1 (some 0) [PNode.leaf 2 (some 1)]]).2),
      t.powner = none) := by
  intro h
  have hm : PNode.leaf 2 (some 1) ∈ trace_tree_leaf_items
      ((clear_child_items
        [PNode.group 1 (some 0) [PNode.leaf 2 (some 1)]]).2) := by
    simp [clear_child_items, PNode.set_owner, trace_tree_leaf_items]
  have := h (PNode.leaf 2 (some 1)) hm
  simp [PNode.powner] at this

/-- C4 (amended): `clear_child_items` nulls the owner back-reference of every
direct child (whose owner, per the verified assertion, is this owner) and
clears the owner's list in one step; the nested contents of child groups
(identities and children, hence their internal back-references) are left
untouched. -/
theorem clear_child_items_spec (items_ : List PNode) (oid : Nat)
    (hown : ∀ t ∈ items_, t.powner = some oid) :
    (clear_child_items items_).1 = [] ∧
    List.Forall₂ (fun t t' => t'.powner = none ∧ t'.idOf = t.idOf ∧
      t'.childrenOf = t.childrenOf) items_ (clear_child_items items_).2 := by
  refine ⟨rfl, ?_⟩
  show List.Forall₂ _ items_ (items_.map _)
  rw [List.forall₂_map_right_iff, List.forall₂_same]
  intro t ht
  exact ⟨set_owner_powner t none, set_owner_idOf t none,
    set_owner_childrenOf t none⟩

/-- Witness for C4 (amended) at a concrete input. -/
theorem clear_child_items_spec_witness :
    (clear_child_items [PNode.leaf 5 (some 3)]).1 = [] ∧
    List.Forall₂ (fun t t' => t'.powner = none ∧ t'.idOf = t.idOf ∧
      t'.childrenOf = t.childrenOf) [PNode.leaf 5 (some 3)]
      (clear_child_items [PNode.leaf 5 (some 3)]).2 :=
  clear_child_items_spec [PNode.leaf 5 (some 3)] 3
    (by intro t ht; simp at ht; subst ht; rfl)

theorem eraseP_id_not_mem : ∀ (items_ : List PNode) (k : Nat),
    ((items_.map PNode.idOf).Nodup) →
    ∀ y ∈ items_.eraseP (fun y => y.idOf == k), y.idOf ≠ k
  | [], _, _, y, hy => by cases hy
  | a :: rest, k, hnd, y, hy => by
    rw [List.map_cons] at hnd
    have hnd' := List.nodup_cons.mp hnd
    by_cases pa : a.idOf = k
    · rw [List.eraseP_cons_of_pos (by simpa using pa)] at hy
      intro hyk
      apply hnd'.1
      rw [pa, ← hyk]
      exact List.mem_map_of_mem PNode.idOf hy
    · rw [List.eraseP_cons_of_neg (by simpa using pa)] at hy
      rcases List.mem_cons.mp hy with rfl | hy'
      · exact pa
      · exact eraseP_id_not_mem rest k hnd'.2 y hy'

/-- C8: after `add_child_item(x)` on an item `x` with no owner (and, by the
ownership invariant, not already listed), `x`'s identity appears exactly once
in `child_items()` and the listed entry's owner is this owner; after
`remove_child_item(x)` on an item owned by this owner, `x`'s identity is
absent from `child_items()` and the detached item's owner is null. -/
theorem add_remove_child_item_spec (oid : Nat) (items_ : List PNode)
    (x : PNode) :
    (x.powner = none → x.idOf ∉ items_.map PNode.idOf →
      ((add_child_item oid items_ x).countP (fun y => y.idOf == x.idOf) = 1 ∧
       ∀ y ∈ add_child_item oid items_ x, y.idOf = x.idOf →
         y.powner = some oid)) ∧
    (x.powner = some oid → (items_.map PNode.idOf).Nodup →
      ((∀ y ∈ (remove_child_item items_ x).1, y.idOf ≠ x.idOf) ∧
       (remove_child_item items_ x).2.powner = none)) := by
  constructor
  · intro _ hnotin
    have hne : ∀ y ∈ items_, ¬(y.idOf = x.idOf) := by
      intro y hy hyx
      exact hnotin (hyx ▸ List.mem_map_of_mem PNode.idOf hy)
    constructor
    · unfold add_child_item
      rw [List.countP_append]
      have h0 : items_.countP (fun y => y.idOf == x.idOf) = 0 :=
        List.countP_eq_zero.mpr (fun y hy => by simpa using hne y hy)
      rw [h0]
      simp [List.countP_cons, set_owner_idOf]
    · intro y hy hyx
      rcases List.mem_append.mp hy with hy' | hy'
      · exact absurd hyx (hne y hy')
      · have : y = x.set_owner (some oid) := by simpa using hy'
        rw [this, set_owner_powner]
  · intro _ hnd
    exact ⟨eraseP_id_not_mem items_ x.idOf hnd, set_owner_powner x none⟩

/-- Witness for C8 at a concrete input: adding an unowned leaf (id 7) to an
owner (id 0) holding a leaf (id 3), then the removal clauses on the listed
leaf (id 3). -/
theorem add_remove_child_item_spec_witness :
    ((PNode.leaf 7 none).powner = none →
      (PNode.leaf 7 none).idOf ∉ [PNode.leaf 3 (some 0)].map PNode.idOf →
      ((add_child_item 0 [PNode.leaf 3 (some 0)]
          (PNode.leaf 7 none)).countP
          (fun y => y.idOf == (PNode.leaf 7 none).idOf) = 1 ∧
       ∀ y ∈ add_child_item 0 [PNode.leaf 3 (some 0)] (PNode.leaf 7 none),
         y.idOf = (PNode.leaf 7 none).idOf → y.powner = some 0)) ∧
    ((PNode.leaf 3 (some 0)).powner = some 0 →
      ([PNode.leaf 3 (some 0)].map PNode.idOf).Nodup →
      ((∀ y ∈ (remove_child_item [PNode.leaf 3 (some 0)]
          (PNode.leaf 3 (some 0))).1,
          y.idOf ≠ (PNode.leaf 3 (some 0)).idOf) ∧
       (remove_child_item [PNode.leaf 3 (some 0)]
          (PNode.leaf 3 (some 0))).2.powner = none)) :=
  add_remove_child_item_spec 0 [PNode.leaf 3 (some 0)] (PNode.leaf 7 none)
    |>.1 |> (fun h1 =>
      ⟨fun _ _ => h1 (by rfl) (by simp [PNode.idOf]),
       fun _ _ =>
        (add_remove_child_item_spec 0 [PNode.leaf 3 (some 0)]
          (PNode.leaf 3 (some 0))).2 (by rfl) (by simp)⟩)

/-!
### Persistence model

`Sec` models one `QSettings` section as consumed/produced by the tree
persistence code: an optional `"items"` integer, an optional `"trace"`
string, and the numbered subsections `"0" .. "n-1"` in order.  `TTree`
models the shape of a restored tree: leaves are identified by the name the
lookup table resolved them to.  The lookup table
`map<QString, shared_ptr<TraceTreeItem>>` is modelled as an association list
from saved names to leaf identities.

`Trace::save_trace_tree` / `Trace::restore_trace_tree` (the leaf overrides)
are not part of this translation unit.  Modelled from the spec: a leaf's
section is `{"trace": <name>, ...leaf-specific keys}` and a restored leaf
only reads scalar sub-state of its own, which does not affect tree shape.
-/

inductive Sec where
  | mk : Option Int → Option String → List Sec → Sec
deriving Repr

def Sec.items? : Sec → Option Int
  | .mk i _ _ => i

def Sec.trace? : Sec → Option String
  | .mk _ t _ => t

def Sec.subs : Sec → List Sec
  | .mk _ _ s => s

inductive TTree where
  | trace : String → TTree
  | group : List TTree → TTree
deriving Repr

mutual

/-- The virtual `child->save_trace_tree(settings)` call of line 135: a group
saves its own subtree through `TraceTreeItemOwner::save_trace_tree`; a leaf
(modelled from the spec) records its `"trace"` name. -/
def saveItem : TTree → Sec
  | .trace n => Sec.mk none (some n) []
  | .group cs => Sec.mk (some (cs.length : Int)) none (saveItemList cs)

def saveItemList : List TTree → List Sec
  | [] => []
  | t :: rest => saveItem t :: saveItemList rest

end

/-- Embeds `TraceTreeItemOwner::save_trace_tree` (lines 130-139): each direct child
is saved into the numbered section `"0"`, `"1"`, ... in child order, then the
child count is recorded under `"items"`. -/
def save_trace_tree (children : List TTree) : Sec :=
  Sec.mk (some (children.length : Int)) none (saveItemList children)

theorem sizeOf_take_le : ∀ (l : List Sec) (n : Nat),
    sizeOf (l.take n) ≤ sizeOf l
  | [], n => by cases n <;> simp
  | a :: l, 0 => by simp [List.take]; omega
  | a :: l, n + 1 => by
    simp only [List.take]
    have := sizeOf_take_le l n
    simp only [List.cons.sizeOf_spec]
    omega

/-- The loop body of `TraceTreeItemOwner::restore_trace_tree` (lines
144-160), iterated over the numbered sections `"0" .. count-1` (sections
beyond those present hold no keys and contribute nothing): a section with an
`"items"` key restores recursively into a new group that is attached only if
it received at least one child; otherwise a section with a `"trace"` key
attaches the leaf the lookup table resolves its name to, a missing name being
skipped; a section with neither key is skipped. -/
def restoreEntryList : List Sec → List (String × String) → List TTree
  | [], _ => []
  | sub :: rest, table =>
    (match sub.items? with
     | some count =>
       let cs := restoreEntryList (sub.subs.take count.toNat) table
       if cs.isEmpty then [] else [TTree.group cs]
     | none =>
       match sub.trace? with
       | some name =>
         (match table.lookup name with
          | some t => [TTree.trace t]
          | none => [])
       | none => []) ++ restoreEntryList rest table
termination_by l _ => sizeOf l
decreasing_by
  all_goals
    first
    | omega
    | (simp only [List.cons.sizeOf_spec] <;> omega)
    | (have h1 : sizeOf (sub.subs.take count.toNat) ≤ sizeOf sub.subs :=
        sizeOf_take_le sub.subs count.toNat
       have h2 : sizeOf sub.subs < sizeOf sub := by
         cases sub
         simp [Sec.subs]
         try omega
       simp only [List.cons.sizeOf_spec] <;> omega)

/-- Embeds `TraceTreeItemOwner::restore_trace_tree` (lines 141-162): asserts the
presence of the `"items"` count (`none` models the fatal assertion failure),
then restores each numbered child section in order; the final
`restack_items()` call only assigns offsets and does not affect the shape. -/
def restore_trace_tree (s : Sec) (table : List (String × String)) :
    Option (List TTree) :=
  match s.items? with
  | none => none
  | some count => some (restoreEntryList (s.subs.take count.toNat) table)

theorem saveItemList_length : ∀ ts : List TTree,
    (saveItemList ts).length = ts.length
  | [] => rfl
  | t :: rest => by simp [saveItemList, saveItemList_length rest]

/-- The shape that restoration reconstructs from a saved tree, stated over
trees: leaves are resolved through the lookup table (absent names dropped)
and groups left empty by that pruning are dropped. -/
def pruneList : List TTree → List (String × String) → List TTree
  | [], _ => []
  | TTree.trace n :: rest, table =>
    (match table.lookup n with
     | some t => [TTree.trace t]
     | none => []) ++ pruneList rest table
  | TTree.group gs :: rest, table =>
    (if (pruneList gs table).isEmpty then []
     else [TTree.group (pruneList gs table)]) ++ pruneList rest table

/-- Restoring a saved child list yields exactly its pruning. -/
theorem restore_saveItemList (table : List (String × String)) :
    ∀ ts : List TTree,
      restoreEntryList (saveItemList ts) table = pruneList ts table
  | [] => by simp [saveItemList, restoreEntryList, pruneList]
  | TTree.trace n :: rest => by
    rw [show saveItemList (TTree.trace n :: rest)
        = Sec.mk none (some n) [] :: saveItemList rest by
      simp [saveItemList, saveItem]]
    simp only [restoreEntryList, Sec.items?, Sec.trace?]
    rw [restore_saveItemList table rest]
    cases hl : table.lookup n <;> simp [pruneList, hl]
  | TTree.group gs :: rest => by
    rw [show saveItemList (TTree.group gs :: rest)
        = Sec.mk (some (gs.length : Int)) none (saveItemList gs)
            :: saveItemList rest by
      simp [saveItemList, saveItem]]
    simp only [restoreEntryList, Sec.items?, Sec.subs]
    rw [Int.toNat_natCast,
      List.take_of_length_le (le_of_eq (saveItemList_length gs)),
      restore_saveItemList table gs, restore_saveItemList table rest]
    by_cases hp : (pruneList gs table).isEmpty = true <;>
      simp [pruneList, hp]
termination_by ts => sizeOf ts

def leafNamesList : List TTree → List String
  | [] => []
  | TTree.trace n :: rest => n :: leafNamesList rest
  | TTree.group gs :: rest => leafNamesList gs ++ leafNamesList rest

/-- Recursively, every group node has at least one child. -/
def groupsNonemptyList : List TTree → Bool
  | [] => true
  | TTree.trace _ :: rest => groupsNonemptyList rest
  | TTree.group gs :: rest =>
    (!gs.isEmpty) && groupsNonemptyList gs && groupsNonemptyList rest

/-- When the table resolves every leaf name to itself and no group is empty,
pruning is the identity. -/
theorem pruneList_eq_self (table : List (String × String)) :
    ∀ ts : List TTree,
      (∀ n ∈ leafNamesList ts, table.lookup n = some n) →
      groupsNonemptyList ts = true →
      pruneList ts table = ts
  | [], _, _ => by simp [pruneList]
  | TTree.trace n :: rest, hn, hg => by
    have h1 : table.lookup n = some n :=
      hn n (by simp [leafNamesList])
    have h2 := pruneList_eq_self table rest
      (fun m hm => hn m (by simp [leafNamesList, hm]))
      (by simpa [groupsNonemptyList] using hg)
    simp [pruneList, h1, h2]
  | TTree.group gs :: rest, hn, hg => by
    have hg3 : (!gs.isEmpty) = true ∧ groupsNonemptyList gs = true ∧
        groupsNonemptyList rest = true := by
      simpa [groupsNonemptyList, Bool.and_assoc, Bool.and_eq_true] using hg
    have h2 : pruneList gs table = gs := pruneList_eq_self table gs
      (fun m hm => hn m (by simp [leafNamesList, hm])) hg3.2.1
    have h3 : pruneList rest table = rest := pruneList_eq_self table rest
      (fun m hm => hn m (by simp [leafNamesList, hm])) hg3.2.2
    have h4 : gs.isEmpty = false := by
      cases he : gs.isEmpty
      · rfl
      · rw [he] at hg3; exact absurd hg3.1 (by simp)
    simp [pruneList, h2, h3, h4]
termination_by ts => sizeOf ts

/-- C2 counterexample: the tree consisting of one empty group, saved and
restored with a lookup table that (vacuously) maps every saved leaf name,
comes back as the empty child list, not as an isomorphic tree: the restored
empty group is discarded. -/
theorem save_restore_not_isomorphic :
    restore_trace_tree (save_trace_tree [TTree.group []]) [] = some [] ∧
    some ([] : List TTree) ≠ some [TTree.group []] := by
  constructor
  · simp [save_trace_tree, saveItemList, saveItem, restore_trace_tree,
      restoreEntryList, Sec.items?, Sec.subs, Sec.trace?]
  · simp

/-- C2 (amended): restoring a saved tree always succeeds (no abort) and
yields exactly the pruning of the original: leaves whose names the table
does not resolve are dropped, and groups left empty are dropped, recursively.
In particular, when the table maps every saved leaf name to its leaf and
every group recursively retains at least one child, the restored tree equals
the original (same group nesting, same leaf identities, same order). -/
theorem save_restore_round_trip :
    (∀ (cs : List TTree) (table : List (String × String)),
      restore_trace_tree (save_trace_tree cs) table
        = some (pruneList cs table)) ∧
    (∀ (cs : List TTree) (table : List (String × String)),
      (∀ n ∈ leafNamesList cs, table.lookup n = some n) →
      groupsNonemptyList cs = true →
      restore_trace_tree (save_trace_tree cs) table = some cs) := by
  have key : ∀ (cs : List TTree) (table : List (String × String)),
      restore_trace_tree (save_trace_tree cs) table
        = some (pruneList cs table) := by
    intro cs table
    simp only [restore_trace_tree, save_trace_tree, Sec.items?, Sec.subs]
    rw [Int.toNat_natCast,
      List.take_of_length_le (le_of_eq (saveItemList_length cs)),
      restore_saveItemList table cs]
  exact ⟨key, fun cs table hn hg => by
    rw [key cs table, pruneList_eq_self table cs hn hg]⟩

/-- Witness for C2 (amended) at a concrete input: a group holding the leaf
named `"a"`, with a table resolving `"a"`; the round trip is the identity. -/
theorem save_restore_round_trip_witness :
    restore_trace_tree (save_trace_tree [TTree.group [TTree.trace "a"]])
        [("a", "a")] = some [TTree.group [TTree.trace "a"]] :=
  save_restore_round_trip.2 [TTree.group [TTree.trace "a"]] [("a", "a")]
    (by
      intro n hn
      simp [leafNamesList] at hn
      subst hn
      rfl)
    (by simp [groupsNonemptyList])

/-- C9: a numbered section carrying an `"items"` key is restored as a group:
its recursive restore completes without tripping the entry assertion (the
`"items"` presence it asserts is exactly the guard that selected this
branch), and the new group is attached if and only if that recursive restore
yielded at least one child; an empty restored group is discarded without
error. -/
theorem restore_group_section_attached_iff_nonempty (sub : Sec)
    (rest : List Sec) (table : List (String × String)) (count : Int)
    (h : sub.items? = some count) :
    restoreEntryList (sub :: rest) table
      = (if (restoreEntryList (sub.subs.take count.toNat) table).isEmpty
         then []
         else [TTree.group
            (restoreEntryList (sub.subs.take count.toNat) table)])
        ++ restoreEntryList rest table ∧
    restore_trace_tree sub table
      = some (restoreEntryList (sub.subs.take count.toNat) table) := by
  constructor
  · simp only [restoreEntryList, h]
  · simp [restore_trace_tree, h]

/-- Witness for C9 at a concrete input: a group section holding the leaf
section named `"a"`, followed by no further sections. -/
theorem restore_group_section_attached_iff_nonempty_witness :
    restoreEntryList
        [Sec.mk (some 1) none [Sec.mk none (some "a") []]] [("a", "a")]
      = (if (restoreEntryList
            ((Sec.mk (some 1) none [Sec.mk none (some "a") []]).subs.take
              (1 : Int).toNat) [("a", "a")]).isEmpty
         then []
         else [TTree.group (restoreEntryList
            ((Sec.mk (some 1) none [Sec.mk none (some "a") []]).subs.take
              (1 : Int).toNat) [("a", "a")])])
        ++ restoreEntryList [] [("a", "a")] ∧
    restore_trace_tree (Sec.mk (some 1) none [Sec.mk none (some "a") []])
        [("a", "a")]
      = some (restoreEntryList
          ((Sec.mk (some 1) none [Sec.mk none (some "a") []]).subs.take
            (1 : Int).toNat) [("a", "a")]) :=
  restore_group_section_attached_iff_nonempty
    (Sec.mk (some 1) none [Sec.mk none (some "a") []]) [] [("a", "a")] 1 rfl

/-- C10: a numbered section carrying neither an `"items"` key nor a `"trace"`
key is silently skipped: it contributes no child and the remaining numbered
sections are restored as if it were not there. -/
theorem restore_skips_keyless_section (sub : Sec) (rest : List Sec)
    (table : List (String × String))
    (h1 : sub.items? = none) (h2 : sub.trace? = none) :
    restoreEntryList (sub :: rest) table = restoreEntryList rest table := by
  simp [restoreEntryList, h1, h2]

/-- Witness for C10 at a concrete input: an empty keyless section followed by
a leaf section. -/
theorem restore_skips_keyless_section_witness :
    restoreEntryList [Sec.mk none none [], Sec.mk none (some "a") []]
        [("a", "a")]
      = restoreEntryList [Sec.mk none (some "a") []] [("a", "a")] :=
  restore_skips_keyless_section (Sec.mk none none [])
    [Sec.mk none (some "a") []] [("a", "a")] rfl rfl
